import Mathlib

/-
Shallow embedding of the core logic of the RAG repository (backend/):
the two text chunkers (DocumentProcessor.chunk_text and the chunk_text
helper of main_ephemeral.py), the lexical EphemeralStore, a model of the
VectorStore over its persistent index, and the answer pipeline of
rag_pipeline.py.  Strings are embedded as List Char and Python slice,
strip, split, rfind and lower semantics are reproduced explicitly.
-/

/-- The whitespace characters of Python str.isspace that matter for
str.strip() / str.split() on ordinary text. -/
def isPySpace (c : Char) : Bool :=
  c = ' ' || c = '\t' || c = '\n' || c = '\r' || c = '\x0b' || c = '\x0c'

/-- Leading-whitespace removal (Python str.lstrip with no argument). -/
def stripL (l : List Char) : List Char := l.dropWhile isPySpace

/-- Trailing-whitespace removal (Python str.rstrip with no argument). -/
def stripR (l : List Char) : List Char := (l.reverse.dropWhile isPySpace).reverse

/-- Python str.strip with no argument. -/
def pyStrip (l : List Char) : List Char := stripR (stripL l)

/-- Index clamping of Python slicing: a negative index counts from the end
of the string, and out-of-range indices are clamped. -/
def pyIdx (L k : Int) : Int := if k < 0 then max (L + k) 0 else min k L

/-- Python slice text[i:j] on a list of characters. -/
def pySlice (l : List Char) (i j : Int) : List Char :=
  (l.take (pyIdx l.length j).toNat).drop (pyIdx l.length i).toNat

/-- Python str.rfind: the index of the last occurrence of sub in hay,
or -1 when sub does not occur. -/
def rfind (hay sub : List Char) : Int :=
  match hay with
  | [] => if sub.isEmpty then 0 else -1
  | c :: t =>
    if 0 ≤ rfind t sub then rfind t sub + 1
    else if sub.isPrefixOf (c :: t) then 0 else -1

/-- The four sentence-ending delimiters of DocumentProcessor.chunk_text. -/
def sentenceDelims : List (List Char) := [['.', ' '], ['.', '\n'], ['!', ' '], ['?', '\n']]

/-- One delimiter test of DocumentProcessor.chunk_text (lines 117-119):
accept the delimiter when its last occurrence lies strictly past half the
window (last_delimiter > len * 0.5, exact as 2 * last_delimiter > len),
yielding the offset just past that occurrence. -/
def delimCand (c d : List Char) : Option Int :=
  if rfind c d ≠ -1 ∧ 2 * rfind c d > (c.length : Int) then
    some (rfind c d + (d.length : Int))
  else none

/-- The delimiter scan of DocumentProcessor.chunk_text (lines 116-121): the
first delimiter in order that passes its test wins (the for loop breaks). -/
def findBreak (c : List Char) : Option Int :=
  (sentenceDelims.filterMap (delimCand c)).head?

/-- A chunk record as built by both chunkers: stripped text plus positional
metadata. -/
structure Chunk where
  text : List Char
  chunk_id : Int
  start_char : Int
  end_char : Int
deriving Repr, DecidableEq

/-- end = start + chunk_size clamped to the text length, common to both
chunkers (document_processor.py lines 105-109, main_ephemeral.py lines
81-83). -/
def clampEnd (cs L start : Int) : Int :=
  if start + cs > L then L else start + cs

/-- One window-end computation of DocumentProcessor.chunk_text (lines
105-121): window of chunk_size clamped to the text length, then possibly
shrunk to a sentence boundary when the window does not reach the end of the
text and is longer than 50 characters. -/
def docWindowEnd (cs : Int) (text : List Char) (L start : Int) : Int :=
  if clampEnd cs L start < L ∧ ((pySlice text start (clampEnd cs L start)).length : Int) > 50 then
    match findBreak (pySlice text start (clampEnd cs L start)) with
    | some v => start + v
    | none => clampEnd cs L start
  else clampEnd cs L start

/-- The conditional append of lines 124-131 of document_processor.py (and
85-87 of main_ephemeral.py): emit the stripped window as a chunk record
unless it stripped to nothing. -/
def emitChunk (cid start e : Int) (c : List Char) (acc : List Chunk) : List Chunk :=
  if c = [] then acc else acc ++ [⟨c, cid, start, e⟩]

/-- chunk_id += 1, performed only when a chunk was emitted. -/
def bumpCid (c : List Char) (cid : Int) : Int :=
  if c = [] then cid else cid + 1

/-- The while loop of DocumentProcessor.chunk_text (lines 104-138),
fuel-bounded.  Returns the chunks emitted so far and a completion flag;
the flag is false when the fuel ran out before the loop exited, modelling
a run that has not terminated.  The next window start is end - overlap
with no forward-progress clamp, exactly as in the source. -/
def auxDoc (cs o : Int) (text : List Char) (L : Int) :
    Nat → Int → Int → List Chunk → List Chunk × Bool
  | 0, _, _, acc => (acc, false)
  | fuel + 1, start, cid, acc =>
    if start ≥ L then (acc, true)
    else
      auxDoc cs o text L fuel (docWindowEnd cs text L start - o)
        (bumpCid (pyStrip (pySlice text start (docWindowEnd cs text L start))) cid)
        (emitChunk cid start (docWindowEnd cs text L start)
          (pyStrip (pySlice text start (docWindowEnd cs text L start))) acc)

/-- The truncation step of DocumentProcessor.chunk_text (lines 98-102):
text longer than 1,000,000 characters is cut at that ceiling. -/
def truncText (text : List Char) : List Char :=
  if (text.length : Int) > 1000000 then text.take 1000000 else text

/-- DocumentProcessor.chunk_text (document_processor.py lines 77-140):
empty and whitespace-only text yields no chunks; text longer than 1,000,000
characters is truncated; then the character walk runs. -/
def chunkTextDoc (cs o : Int) (text : List Char) (fuel : Nat) : List Chunk × Bool :=
  if pyStrip text = [] then ([], true)
  else auxDoc cs o (truncText text) (truncText text).length fuel 0 0 []

/-- The while loop of chunk_text in main_ephemeral.py (lines 80-90),
fuel-bounded: no sentence heuristic, and the next window start is
max(end - overlap, end). -/
def auxEph (cs o : Int) (text : List Char) (L : Int) :
    Nat → Int → Int → List Chunk → List Chunk × Bool
  | 0, _, _, acc => (acc, false)
  | fuel + 1, start, cid, acc =>
    if start ≥ L then (acc, true)
    else
      auxEph cs o text L fuel
        (max (clampEnd cs L start - o) (clampEnd cs L start))
        (bumpCid (pyStrip (pySlice text start (clampEnd cs L start))) cid)
        (emitChunk cid start (clampEnd cs L start)
          (pyStrip (pySlice text start (clampEnd cs L start))) acc)

/-- chunk_text of main_ephemeral.py (lines 72-91): the whole text is
stripped first, then walked without truncation or boundary heuristic. -/
def chunkTextEph (cs o : Int) (text : List Char) (fuel : Nat) : List Chunk × Bool :=
  if pyStrip text = [] then ([], true)
  else auxEph cs o (pyStrip text) (pyStrip text).length fuel 0 0 []

/-- The words of a string, Python str.split() with no argument: maximal
runs of non-whitespace characters. -/
def splitAux : List Char → List Char → List (List Char)
  | [], cur => if cur = [] then [] else [cur.reverse]
  | c :: t, cur =>
    if isPySpace c then
      if cur = [] then splitAux t [] else cur.reverse :: splitAux t []
    else splitAux t (c :: cur)

/-- Python str.split() with no argument. -/
def pySplit (l : List Char) : List (List Char) := splitAux l []

/-- An EphemeralStore state: the self.documents dict, a filename-keyed map
in insertion order (Python dicts preserve insertion order, and assignment
to an existing key keeps its position). -/
abbrev Store : Type := List (String × List Chunk)

/-- Python dict assignment d[f] = v: replace in place when the key exists,
append at the end otherwise.  This is EphemeralStore.add_documents
(ephemeral_store.py lines 14-16). -/
def add_documents (store : Store) (chunks : List Chunk) (filename : String) : Store :=
  match store with
  | [] => [(filename, chunks)]
  | (g, w) :: t =>
    if g = filename then (filename, chunks) :: t
    else (g, w) :: add_documents t chunks filename

/-- A retrieval hit as built by EphemeralStore.search: original chunk text,
the metadata dict fields, and the lexical score. -/
structure RHit where
  text : List Char
  filename : String
  chunk_id : Int
  score : Int
deriving Repr, DecidableEq

/-- The per-chunk score of EphemeralStore.search (lines 31-36), applied to
the lower-cased query ql and lower-cased chunk text tl: +10 when the query
occurs as a substring, plus the number of distinct shared words. -/
def scoreChunk (ql tl : List Char) : Int :=
  (if 0 ≤ rfind tl ql then 10 else 0) +
    (((pySplit ql).dedup.filter (fun w => w ∈ pySplit tl)).length : Int)

/-- The scored list built by the nested loops of EphemeralStore.search
(lines 26-42): every chunk of every file in insertion order, kept only
when its score is positive. -/
def scoredHits (store : Store) (ql : List Char) : List RHit :=
  store.flatMap (fun fc => fc.2.filterMap (fun ch =>
    if scoreChunk ql (ch.text.map Char.toLower) > 0 then
      some ⟨ch.text, fc.1, ch.chunk_id, scoreChunk ql (ch.text.map Char.toLower)⟩
    else none))

/-- scored.sort(key=lambda x: x["score"], reverse=True): a stable sort
into descending score order. -/
def sortScoredDesc (l : List RHit) : List RHit :=
  l.insertionSort (fun a b => b.score ≤ a.score)

/-- EphemeralStore.search (ephemeral_store.py lines 18-45).  Char.toLower
models str.lower() (they agree on the ASCII range). -/
def search (store : Store) (q : List Char) (top_k : Nat) : List RHit :=
  if store = [] then []
  else (sortScoredDesc (scoredHits store (q.map Char.toLower))).take top_k

/-- EphemeralStore.list_documents (line 47-48): list(self.documents.keys()),
the filenames in dict insertion order. -/
def list_documents (store : Store) : List String := store.map Prod.fst

/-- EphemeralStore.stats (lines 57-59): (total_documents, total_chunks). -/
def stats (store : Store) : Int × Int :=
  ((store.length : Int), ((store.map (fun fc => fc.2.length)).sum : Int))

/-- One entry of the persistent similarity index behind VectorStore:
composite id, the metadata written by VectorStore.add_documents, and the
document text.  Embedding vectors are external and carry no information
used by any claim, so they are omitted. -/
structure VEntry where
  id : String
  filename : String
  chunk_id : Int
  start_char : Int
  end_char : Int
  text : List Char
deriving Repr, DecidableEq

/-- Modelled from the spec: the persistent similarity index capability of
spec section 6 ("upsert(ids, vectors, documents, metadatas)"), standing in
for the chromadb collection behind VectorStore (external library code).
An upsert replaces the entry whose id matches a batch id and appends
entries with fresh ids; it never removes entries whose ids are absent from
the batch.  (The chromadb add call in the source never even overwrites an
existing id; full upsert is the reading most favourable to idempotence,
and the refuted claim below fails under either reading.) -/
def collUpsert (coll : List VEntry) (es : List VEntry) : List VEntry :=
  es.foldl (fun acc e =>
    if acc.any (fun e2 => e2.id = e.id) then
      acc.map (fun e2 => if e2.id = e.id then e else e2)
    else acc ++ [e]) coll

/-- VectorStore.add_documents (vector_store.py lines 64-95): build the
composite ids f"{filename}_{chunk_id}" and metadata and hand the batch to
the index; no prior delete of existing entries for the filename. -/
def vecAddDocuments (coll : List VEntry) (chunks : List Chunk) (filename : String) :
    List VEntry :=
  collUpsert coll (chunks.map (fun ch =>
    ⟨filename ++ "_" ++ toString ch.chunk_id, filename, ch.chunk_id,
      ch.start_char, ch.end_char, ch.text⟩))

/-- VectorStore.list_documents (lines 144-159): the distinct filenames of
all stored entries, sorted; sorted(list(set(...))) is canonical, so the
arbitrary set iteration order is modelled by dedup followed by a sort. -/
def vecListDocuments (coll : List VEntry) : List String :=
  ((coll.map (fun e => e.filename)).dedup).insertionSort (fun a b => a ≤ b)

/-- collection.count(): the number of stored entries. -/
def vecCount (coll : List VEntry) : Int := (coll.length : Int)

/-- VectorStore.get_collection_stats (lines 161-175):
(total_chunks, total_documents). -/
def vecStats (coll : List VEntry) : Int × Int :=
  (vecCount coll, ((vecListDocuments coll).length : Int))

/-- A sources entry of RAGPipeline.generate_answer step 4. -/
structure SourceRef where
  text : List Char
  filename : String
  chunk_id : Int
deriving Repr, DecidableEq

/-- doc["text"][:200] + "..." when longer than 200 characters. -/
def truncate200 (t : List Char) : List Char :=
  if (t.length : Int) > 200 then t.take 200 ++ "...".data else t

/-- The labelled block for one hit, the f-string of rag_pipeline.py line 72
and main_ephemeral.py line 161. -/
def sourceBlock (i : Nat) (h : RHit) : List Char :=
  "[Source ".data ++ (Nat.repr i).data ++ " from ".data ++ h.filename.data
    ++ "]:\n".data ++ h.text

/-- Python sep.join(parts): the parts with sep between consecutive ones. -/
def pyJoin (sep : List Char) : List (List Char) → List Char
  | [] => []
  | [x] => x
  | x :: y :: t => x ++ sep ++ pyJoin sep (y :: t)

/-- The enumerated block list of both context builders: one labelled block
per hit, indices counting up from i (Python enumerate). -/
def enumBlocks (i : Nat) : List RHit → List (List Char)
  | [] => []
  | h :: t => sourceBlock i h :: enumBlocks (i + 1) t

/-- RAGPipeline.prepare_context (rag_pipeline.py lines 60-74): one block
per hit, enumerate(docs, 1), joined by "\n\n". -/
def prepare_context (docs : List RHit) : List Char :=
  pyJoin "\n\n".data (enumBlocks 1 docs)

/-- The inline context expression of the query handler in main_ephemeral.py
(line 161): same blocks, enumerate(hits) 0-based with i+1 in the label. -/
def ephContext (hits : List RHit) : List Char :=
  pyJoin "\n\n".data (enumBlocks 1 hits)

/-- The Context Assembler contract of spec section 4.3 stated in its own
words: render each hit, in input order, as its labelled block, join
consecutive blocks with exactly one blank line, and return the empty
string on empty input.  Used to compare the source definitions against
the spec sentence. -/
def assembleSpec : Nat → List RHit → List Char
  | _, [] => []
  | i, [h] => sourceBlock i h
  | i, h :: h2 :: t => sourceBlock i h ++ '\n' :: '\n' :: assembleSpec (i + 1) (h2 :: t)

/-- The failure modes of the requests.post call in _generate_with_ollama:
a requests.exceptions.RequestException (network error, timeout, bad
status) or any other exception (e.g. a JSON decoding error). -/
inductive BackendErr where
  | requestException (msg : List Char)
  | otherException (msg : List Char)
deriving Repr, DecidableEq

/-- RAGPipeline._generate_with_ollama (rag_pipeline.py lines 110-135): the
outcome of the fallible network call is an input; the two except clauses
translate failures into in-band message strings. -/
def generateWithOllama (r : Except BackendErr (List Char)) : List Char :=
  match r with
  | .ok ans => ans
  | .error (.requestException m) =>
    "Error connecting to Ollama: ".data ++ m ++ ". Make sure Ollama is running.".data
  | .error (.otherException m) => "Error generating answer: ".data ++ m

/-- RAGPipeline._generate_with_openai (lines 137-171): one except clause
catching every exception. -/
def generateWithOpenai (r : Except (List Char) (List Char)) : List Char :=
  match r with
  | .ok ans => ans
  | .error m => "Error generating answer with OpenAI: ".data ++ m

/-- RAGPipeline._generate_with_groq (lines 173-211). -/
def generateWithGroq (r : Except (List Char) (List Char)) : List Char :=
  match r with
  | .ok ans => ans
  | .error m => "Error generating answer with Groq: ".data ++ m

/-- The configured llm_provider of RAGPipeline. -/
inductive Provider where
  | ollama
  | openai
  | groq
  | unconfigured
deriving Repr, DecidableEq

/-- RAGPipeline._generate_with_llm (lines 76-97): dispatch on the
configured provider; an unknown provider yields a fixed message without
any backend call. -/
def generateWithLlm (p : Provider) (rOllama : Except BackendErr (List Char))
    (rOpenai rGroq : Except (List Char) (List Char)) : List Char :=
  match p with
  | .ollama => generateWithOllama rOllama
  | .openai => generateWithOpenai rOpenai
  | .groq => generateWithGroq rGroq
  | .unconfigured => "LLM provider not configured correctly.".data

/-- The result dict of RAGPipeline.generate_answer. -/
structure RagResult where
  answer : List Char
  sources : List SourceRef
deriving Repr, DecidableEq

/-- RAGPipeline.generate_answer (rag_pipeline.py lines 19-58).  The
retrieval result and the backend call outcomes are inputs; the Lean
function is total, mirroring that generate_answer returns normally on
every backend outcome. -/
def generate_answer (retrieved_docs : List RHit) (p : Provider)
    (rOllama : Except BackendErr (List Char))
    (rOpenai rGroq : Except (List Char) (List Char)) : RagResult :=
  if retrieved_docs = [] then
    ⟨"I don\x27t have any documents to answer this question. Please upload some documents first.".data, []⟩
  else
    let ans := generateWithLlm p rOllama rOpenai rGroq
    ⟨ans, retrieved_docs.map (fun d => ⟨truncate200 d.text, d.filename, d.chunk_id⟩)⟩

/-- The failure hypothesis of the error-handling claim: the backend that
the configured provider dispatches to raised an exception.  The
unconfigured branch performs no backend call, so it cannot fail. -/
def backendFails (p : Provider) (rOllama : Except BackendErr (List Char))
    (rOpenai rGroq : Except (List Char) (List Char)) : Prop :=
  match p with
  | .ollama => ∃ e, rOllama = .error e
  | .openai => ∃ m, rOpenai = .error m
  | .groq => ∃ m, rGroq = .error m
  | .unconfigured => False

/-- The chunk-sequence invariant of the spec data model: positional bounds
within the text, strictly increasing start_char, and chunk_id a dense
sequence 0, 1, 2, ... over the emitted chunks. -/
def chunkInv (L : Int) (chunks : List Chunk) : Prop :=
  (∀ c ∈ chunks, 0 ≤ c.start_char ∧ c.start_char < c.end_char ∧ c.end_char ≤ L) ∧
  List.Chain' (fun a b => a.start_char < b.start_char) chunks ∧
  chunks.map Chunk.chunk_id = (List.range chunks.length).map Int.ofNat

instance : IsTotal RHit (fun a b => b.score ≤ a.score) :=
  ⟨fun a b => le_total b.score a.score⟩

instance : IsTrans RHit (fun a b => b.score ≤ a.score) :=
  ⟨fun _ _ _ hab hbc => le_trans hbc hab⟩

theorem stripR_eq_rdropWhile (l : List Char) : stripR l = l.rdropWhile isPySpace := rfl

theorem stripL_idem (l : List Char) : stripL (stripL l) = stripL l :=
  List.dropWhile_idempotent isPySpace l

theorem stripL_cons_of_neg (x : Char) (xs : List Char) (h : isPySpace x = false) :
    stripL (x :: xs) = x :: xs := by
  simp [stripL, List.dropWhile_cons, h]

theorem stripL_head_false (m : List Char) (x : Char) (xs : List Char)
    (hm : stripL m = m) (hx : m = x :: xs) : isPySpace x = false := by
  subst hx
  by_contra hp
  have hp2 : isPySpace x = true := by simpa using hp
  have h1 : stripL (x :: xs) = stripL xs := by
    simp [stripL, List.dropWhile_cons, hp2]
  rw [hm] at h1
  have h2 : (stripL xs).length ≤ xs.length := (List.dropWhile_sublist isPySpace).length_le
  have h3 := congrArg List.length h1
  simp only [List.length_cons] at h3
  omega

theorem stripL_of_stripR (m : List Char) (hm : stripL m = m) :
    stripL (stripR m) = stripR m := by
  cases hsr : stripR m with
  | nil => rfl
  | cons x xs =>
    have hpre : stripR m <+: m := by
      rw [stripR_eq_rdropWhile]; exact List.rdropWhile_prefix isPySpace m
    rw [hsr] at hpre
    obtain ⟨t, ht⟩ := hpre
    have hx : isPySpace x = false :=
      stripL_head_false m x (xs ++ t) hm (by rw [← ht]; simp)
    exact stripL_cons_of_neg x xs hx

theorem pyStrip_idem (l : List Char) : pyStrip (pyStrip l) = pyStrip l := by
  show stripR (stripL (stripR (stripL l))) = stripR (stripL l)
  rw [stripL_of_stripR _ (stripL_idem l), stripR_eq_rdropWhile, stripR_eq_rdropWhile,
    List.rdropWhile_idempotent]

theorem pyStrip_ne_nil_of_ne (l : List Char) (h : pyStrip l ≠ []) : l ≠ [] := by
  intro hl
  exact h (by rw [hl]; rfl)

theorem pyIdx_nonneg (L k : Int) : 0 ≤ L → 0 ≤ pyIdx L k := by
  unfold pyIdx; split <;> omega

theorem pyIdx_le (L k : Int) : 0 ≤ L → pyIdx L k ≤ L := by
  unfold pyIdx; split <;> omega

theorem pySlice_full (l : List Char) : pySlice l 0 (l.length : Int) = l := by
  have h0 : pyIdx (l.length : Int) 0 = 0 := by unfold pyIdx; split <;> omega
  have h1 : pyIdx (l.length : Int) (l.length : Int) = (l.length : Int) := by
    unfold pyIdx; split <;> omega
  simp [pySlice, h0, h1]

theorem pySlice_length_le (l : List Char) (i j : Int) :
    ((pySlice l i j).length : Int) ≤ (l.length : Int) - pyIdx (l.length : Int) i := by
  unfold pySlice pyIdx
  simp only [List.length_drop, List.length_take]
  split_ifs <;> omega

theorem pySlice_start_bound (l : List Char) (i j : Int) (h : i < (l.length : Int)) :
    i + ((pySlice l i j).length : Int) ≤ (l.length : Int) := by
  have h1 := pySlice_length_le l i j
  have h2 : i ≤ pyIdx (l.length : Int) i ∨ (l.length : Int) + i ≤ pyIdx (l.length : Int) i := by
    unfold pyIdx; split <;> omega
  omega

theorem rfind_ge_neg_one (hay sub : List Char) : -1 ≤ rfind hay sub := by
  induction hay with
  | nil => unfold rfind; split <;> omega
  | cons c t ih => unfold rfind; split_ifs <;> omega

theorem rfind_le (hay sub : List Char) (h : 0 ≤ rfind hay sub) :
    rfind hay sub + (sub.length : Int) ≤ (hay.length : Int) := by
  induction hay with
  | nil =>
    unfold rfind at h ⊢
    by_cases hs : sub.isEmpty
    · simp only [hs, if_true]
      have : sub = [] := List.isEmpty_iff.mp hs
      simp [this]
    · simp [hs] at h
  | cons c t ih =>
    unfold rfind at h ⊢
    have hb : (c :: t).length = t.length + 1 := rfl
    split_ifs at h ⊢ with h1 h2
    · have := ih h1
      omega
    · have hp : sub <+: c :: t := List.isPrefixOf_iff_prefix.mp h2
      have := hp.length_le
      omega
    · omega

theorem delimCand_bounds (c d : List Char) (v : Int) (h : delimCand c d = some v) :
    1 ≤ v ∧ v ≤ (c.length : Int) := by
  unfold delimCand at h
  split_ifs at h with h1
  · obtain ⟨hne, hhalf⟩ := h1
    have hv : rfind c d + (d.length : Int) = v := by
      simpa using h
    have hge := rfind_ge_neg_one c d
    have h0 : 0 ≤ rfind c d := by omega
    have := rfind_le c d h0
    constructor <;> omega

theorem findBreak_bounds (c : List Char) (v : Int) (h : findBreak c = some v) :
    1 ≤ v ∧ v ≤ (c.length : Int) := by
  unfold findBreak at h
  have hmem : v ∈ sentenceDelims.filterMap (delimCand c) := by
    cases hl : sentenceDelims.filterMap (delimCand c) with
    | nil => rw [hl] at h; simp at h
    | cons x xs => rw [hl] at h; simp at h; simp [h]
  obtain ⟨d, _, hd⟩ := List.mem_filterMap.mp hmem
  exact delimCand_bounds c d v hd

theorem clampEnd_le (cs L start : Int) : clampEnd cs L start ≤ L := by
  unfold clampEnd; split <;> omega

theorem clampEnd_gt (cs L start : Int) (hcs : 1 ≤ cs) (h : start < L) :
    start < clampEnd cs L start := by
  unfold clampEnd; split <;> omega

theorem docWindowEnd_le (cs : Int) (text : List Char) (start : Int)
    (h : start < (text.length : Int)) :
    docWindowEnd cs text (text.length : Int) start ≤ (text.length : Int) := by
  unfold docWindowEnd
  split_ifs with h1
  · cases hb : findBreak (pySlice text start (clampEnd cs (text.length : Int) start)) with
    | none => exact clampEnd_le cs _ start
    | some v =>
      have hv := findBreak_bounds _ v hb
      have hs := pySlice_start_bound text start (clampEnd cs (text.length : Int) start) h
      dsimp only
      omega
  · exact clampEnd_le cs _ start

theorem docWindowEnd_gt (cs : Int) (text : List Char) (L start : Int)
    (hcs : 1 ≤ cs) (h : start < L) :
    start < docWindowEnd cs text L start := by
  unfold docWindowEnd
  split_ifs with h1
  · cases hb : findBreak (pySlice text start (clampEnd cs L start)) with
    | none => exact clampEnd_gt cs L start hcs h
    | some v =>
      have hv := findBreak_bounds _ v hb
      dsimp only
      omega
  · exact clampEnd_gt cs L start hcs h

theorem auxDoc_incomplete (cs o : Int) (text : List Char) (ho : 1 ≤ o) :
    ∀ (fuel : Nat) (start cid : Int) (acc : List Chunk),
      start < (text.length : Int) →
      (auxDoc cs o text (text.length : Int) fuel start cid acc).2 = false := by
  intro fuel
  induction fuel with
  | zero => intro start cid acc _; rfl
  | succ n ih =>
    intro start cid acc h
    rw [auxDoc, if_neg (by omega : ¬ start ≥ (text.length : Int))]
    apply ih
    have hle := docWindowEnd_le cs text start h
    omega

theorem emitChunk_sub (cid start e : Int) (c : List Char) (acc : List Chunk)
    (x : Chunk) (hx : x ∈ emitChunk cid start e c acc) :
    x ∈ acc ∨ x = ⟨c, cid, start, e⟩ := by
  unfold emitChunk at hx
  split_ifs at hx with h1
  · exact Or.inl hx
  · rcases List.mem_append.mp hx with h | h
    · exact Or.inl h
    · exact Or.inr (List.mem_singleton.mp h)

theorem auxDoc_inv (cs : Int) (text : List Char) (hcs : 1 ≤ cs) :
    ∀ (fuel : Nat) (start cid : Int) (acc : List Chunk),
      0 ≤ start →
      (∀ c ∈ acc, 0 ≤ c.start_char ∧ c.start_char < c.end_char ∧ c.end_char ≤ (text.length : Int)) →
      List.Chain' (fun a b => a.start_char < b.start_char) acc →
      acc.map Chunk.chunk_id = (List.range acc.length).map Int.ofNat →
      cid = (acc.length : Int) →
      (∀ c ∈ acc, c.start_char < start) →
      chunkInv (text.length : Int) (auxDoc cs 0 text (text.length : Int) fuel start cid acc).1 ∨
        (auxDoc cs 0 text (text.length : Int) fuel start cid acc).2 = false := by
  intro fuel
  induction fuel with
  | zero => intro start cid acc _ _ _ _ _ _; exact Or.inr rfl
  | succ n ih =>
    intro start cid acc h0 hbnd hch hid hcid hlt
    by_cases hS : start ≥ (text.length : Int)
    · rw [auxDoc, if_pos hS]
      exact Or.inl ⟨hbnd, hch, hid⟩
    · rw [auxDoc, if_neg hS]
      have hgt := docWindowEnd_gt cs text (text.length : Int) start hcs (by omega)
      have hle := docWindowEnd_le cs text start (by omega)
      by_cases hc : pyStrip (pySlice text start (docWindowEnd cs text (text.length : Int) start)) = []
      · rw [hc]
        apply ih
        · omega
        · simpa [emitChunk] using hbnd
        · simpa [emitChunk] using hch
        · simpa [emitChunk] using hid
        · simpa [bumpCid] using hcid
        · simp only [emitChunk, if_pos rfl]
          intro c hcm
          have := hlt c hcm
          omega
      · apply ih
        · omega
        · intro c hcm
          rcases emitChunk_sub _ _ _ _ _ _ hcm with h | h
          · exact hbnd c h
          · subst h; exact ⟨h0, hgt, hle⟩
        · unfold emitChunk
          rw [if_neg hc, List.chain'_append]
          refine ⟨hch, List.chain'_singleton _, ?_⟩
          intro x hx y hy
          simp only [List.head?_cons, Option.mem_some_iff] at hy
          subst hy
          exact hlt x (List.mem_of_mem_getLast? hx)
        · unfold emitChunk
          rw [if_neg hc]
          rw [List.map_append, List.length_append, hid]
          simp only [List.map_singleton, List.length_singleton]
          rw [List.range_succ, List.map_append]
          simp only [List.map_singleton]
          congr 1
          simp only [hcid]
          rfl
        · unfold bumpCid emitChunk
          rw [if_neg hc, if_neg hc]
          simp only [List.length_append, List.length_singleton]
          push_cast
          omega
        · intro c hcm
          rcases emitChunk_sub _ _ _ _ _ _ hcm with h | h
          · have := hlt c h
            omega
          · subst h
            simpa using hgt

theorem auxEph_inv (cs o : Int) (text : List Char) (hcs : 1 ≤ cs) :
    ∀ (fuel : Nat) (start cid : Int) (acc : List Chunk),
      0 ≤ start →
      (∀ c ∈ acc, 0 ≤ c.start_char ∧ c.start_char < c.end_char ∧ c.end_char ≤ (text.length : Int)) →
      List.Chain' (fun a b => a.start_char < b.start_char) acc →
      acc.map Chunk.chunk_id = (List.range acc.length).map Int.ofNat →
      cid = (acc.length : Int) →
      (∀ c ∈ acc, c.start_char < start) →
      chunkInv (text.length : Int) (auxEph cs o text (text.length : Int) fuel start cid acc).1 ∨
        (auxEph cs o text (text.length : Int) fuel start cid acc).2 = false := by
  intro fuel
  induction fuel with
  | zero => intro start cid acc _ _ _ _ _ _; exact Or.inr rfl
  | succ n ih =>
    intro start cid acc h0 hbnd hch hid hcid hlt
    by_cases hS : start ≥ (text.length : Int)
    · rw [auxEph, if_pos hS]
      exact Or.inl ⟨hbnd, hch, hid⟩
    · rw [auxEph, if_neg hS]
      have hgt := clampEnd_gt cs (text.length : Int) start hcs (by omega)
      have hle := clampEnd_le cs (text.length : Int) start
      have hstep : clampEnd cs (text.length : Int) start ≤
          max (clampEnd cs (text.length : Int) start - o) (clampEnd cs (text.length : Int) start) :=
        le_max_right _ _
      by_cases hc : pyStrip (pySlice text start (clampEnd cs (text.length : Int) start)) = []
      · rw [hc]
        apply ih
        · omega
        · simpa [emitChunk] using hbnd
        · simpa [emitChunk] using hch
        · simpa [emitChunk] using hid
        · simpa [bumpCid] using hcid
        · simp only [emitChunk, if_pos rfl]
          intro c hcm
          have := hlt c hcm
          omega
      · apply ih
        · omega
        · intro c hcm
          rcases emitChunk_sub _ _ _ _ _ _ hcm with h | h
          · exact hbnd c h
          · subst h; exact ⟨h0, hgt, hle⟩
        · unfold emitChunk
          rw [if_neg hc, List.chain'_append]
          refine ⟨hch, List.chain'_singleton _, ?_⟩
          intro x hx y hy
          simp only [List.head?_cons, Option.mem_some_iff] at hy
          subst hy
          exact hlt x (List.mem_of_mem_getLast? hx)
        · unfold emitChunk
          rw [if_neg hc]
          rw [List.map_append, List.length_append, hid]
          simp only [List.map_singleton, List.length_singleton]
          rw [List.range_succ, List.map_append]
          simp only [List.map_singleton]
          congr 1
          simp only [hcid]
          rfl
        · unfold bumpCid emitChunk
          rw [if_neg hc, if_neg hc]
          simp only [List.length_append, List.length_singleton]
          push_cast
          omega
        · intro c hcm
          rcases emitChunk_sub _ _ _ _ _ _ hcm with h | h
          · have := hlt c h
            omega
          · subst h
            simp only
            omega

theorem auxEph_overlap (cs o : Int) (text : List Char) (L : Int) (ho : 0 ≤ o) :
    ∀ (fuel : Nat) (start cid : Int) (acc : List Chunk),
      auxEph cs o text L fuel start cid acc = auxEph cs 0 text L fuel start cid acc := by
  intro fuel
  induction fuel with
  | zero => intro start cid acc; rfl
  | succ n ih =>
    intro start cid acc
    rw [auxEph]
    conv_rhs => rw [auxEph]
    by_cases hS : start ≥ L
    · rw [if_pos hS, if_pos hS]
    · rw [if_neg hS, if_neg hS]
      have hmax : max (clampEnd cs L start - o) (clampEnd cs L start) =
          max (clampEnd cs L start - 0) (clampEnd cs L start) := by omega
      rw [hmax, ih]

theorem auxEph_no_overlap (cs o : Int) (text : List Char) (L : Int) (hcs : 1 ≤ cs) :
    ∀ (fuel : Nat) (start cid : Int) (acc : List Chunk),
      (∀ c ∈ acc, c.end_char ≤ start) →
      List.Chain' (fun a b => a.end_char ≤ b.start_char) acc →
      List.Chain' (fun a b => a.end_char ≤ b.start_char)
        (auxEph cs o text L fuel start cid acc).1 := by
  intro fuel
  induction fuel with
  | zero => intro start cid acc _ hch; exact hch
  | succ n ih =>
    intro start cid acc hend hch
    by_cases hS : start ≥ L
    · rw [auxEph, if_pos hS]; exact hch
    · rw [auxEph, if_neg hS]
      have hgt := clampEnd_gt cs L start hcs (by omega)
      have hstep : clampEnd cs L start ≤
          max (clampEnd cs L start - o) (clampEnd cs L start) := le_max_right _ _
      by_cases hc : pyStrip (pySlice text start (clampEnd cs L start)) = []
      · rw [hc]
        apply ih
        · simp only [emitChunk, if_pos rfl]
          intro c hcm
          have := hend c hcm
          omega
        · simpa [emitChunk] using hch
      · apply ih
        · intro c hcm
          rcases emitChunk_sub _ _ _ _ _ _ hcm with h | h
          · have := hend c h
            omega
          · subst h
            simp only
            omega
        · unfold emitChunk
          rw [if_neg hc, List.chain'_append]
          refine ⟨hch, List.chain'_singleton _, ?_⟩
          intro x hx y hy
          simp only [List.head?_cons, Option.mem_some_iff] at hy
          subst hy
          have := hend x (List.mem_of_mem_getLast? hx)
          simp only
          omega

theorem truncText_len_pos (text : List Char) (h : pyStrip text ≠ []) :
    1 ≤ ((truncText text).length : Int) := by
  have ht : text ≠ [] := pyStrip_ne_nil_of_ne text h
  have h2 : 0 < text.length := List.length_pos.mpr ht
  unfold truncText
  split_ifs with h1
  · simp only [List.length_take]
    omega
  · omega

/-- C7 (amended): for the ephemeral chunker, any text whose trimmed form is
non-empty and no longer than chunk_size yields exactly one chunk spanning
the whole trimmed text.  (The DocumentProcessor variant of the claim fails:
see the counterexample, where its loop never terminates.) -/
theorem C7_eph_single_chunk (cs o : Int) (text : List Char) (fuel : Nat)
    (h1 : pyStrip text ≠ []) (h2 : ((pyStrip text).length : Int) ≤ cs) (h3 : 0 ≤ o)
    (h4 : 2 ≤ fuel) :
    chunkTextEph cs o text fuel =
      ([⟨pyStrip text, 0, 0, ((pyStrip text).length : Int)⟩], true) := by
  obtain ⟨n, rfl⟩ : ∃ n, fuel = n + 2 := ⟨fuel - 2, by omega⟩
  unfold chunkTextEph
  rw [if_neg h1]
  have hL1 : 0 < (pyStrip text).length := List.length_pos.mpr h1
  rw [auxEph, if_neg (by omega : ¬ (0 : Int) ≥ ((pyStrip text).length : Int))]
  have hce : clampEnd cs ((pyStrip text).length : Int) 0 = ((pyStrip text).length : Int) := by
    unfold clampEnd; split <;> omega
  rw [hce, pySlice_full (pyStrip text), pyStrip_idem text]
  unfold emitChunk bumpCid
  rw [if_neg h1, if_neg h1]
  have hmax : max (((pyStrip text).length : Int) - o) ((pyStrip text).length : Int) =
      ((pyStrip text).length : Int) := by omega
  rw [hmax, auxEph, if_pos (le_refl ((pyStrip text).length : Int))]
  simp

theorem add_documents_overwrite (store : Store) (f : String) (c1 c2 : List Chunk) :
    add_documents (add_documents store c1 f) c2 f = add_documents store c2 f := by
  induction store with
  | nil => simp [add_documents]
  | cons hd t ih =>
    obtain ⟨g, w⟩ := hd
    by_cases hg : g = f
    · subst hg
      simp [add_documents]
    · simp only [add_documents, if_neg hg]
      rw [ih]

theorem sortScoredDesc_sorted (l : List RHit) :
    List.Sorted (fun a b => b.score ≤ a.score) (sortScoredDesc l) :=
  List.sorted_insertionSort _ l

theorem sortScoredDesc_perm (l : List RHit) : List.Perm (sortScoredDesc l) l :=
  List.perm_insertionSort _ l

theorem filter_score_orderedInsert (x : RHit) (m : List RHit) (s : Int) :
    (List.orderedInsert (fun a b => b.score ≤ a.score) x m).filter (fun h => h.score == s)
      = (x :: m).filter (fun h => h.score == s) := by
  induction m with
  | nil => rfl
  | cons b m ih =>
    rw [List.orderedInsert]
    split_ifs with hr
    · rfl
    · by_cases px : x.score = s <;> by_cases pb : b.score = s
      · exact absurd (by omega : b.score ≤ x.score) hr
      · simp only [List.filter_cons, ih, px, pb]
        simp [px, pb]
      · simp only [List.filter_cons, ih]
        simp [px, pb]
      · simp only [List.filter_cons, ih]
        simp [px, pb]

theorem sortScoredDesc_stable (l : List RHit) (s : Int) :
    (sortScoredDesc l).filter (fun h => h.score == s) = l.filter (fun h => h.score == s) := by
  induction l with
  | nil => rfl
  | cons x l ih =>
    unfold sortScoredDesc at ih ⊢
    rw [List.insertionSort, filter_score_orderedInsert]
    simp only [List.filter_cons]
    rw [ih]

theorem search_take (store : Store) (q : List Char) (k : Nat) :
    search store q k = (sortScoredDesc (scoredHits store (q.map Char.toLower))).take k := by
  unfold search
  split_ifs with h
  · subst h; simp [scoredHits, sortScoredDesc]
  · rfl

theorem scoredHits_score (store : Store) (ql : List Char) (h : RHit)
    (hm : h ∈ scoredHits store ql) :
    0 < h.score ∧ h.score = scoreChunk ql (h.text.map Char.toLower) := by
  unfold scoredHits at hm
  rw [List.mem_flatMap] at hm
  obtain ⟨fc, _, hmem⟩ := hm
  rw [List.mem_filterMap] at hmem
  obtain ⟨ch, _, hch⟩ := hmem
  split_ifs at hch with hs
  · have := Option.some.inj hch
    subst this
    exact ⟨hs, rfl⟩


theorem pyJoin_enumBlocks : ∀ (t : List RHit) (n : Nat),
    pyJoin "\n\n".data (enumBlocks n t) = assembleSpec n t := by
  intro t
  induction t with
  | nil => intro n; rfl
  | cons h t ih =>
    intro n
    cases t with
    | nil => rfl
    | cons h2 t2 =>
      show sourceBlock n h ++ "\n\n".data ++ pyJoin "\n\n".data (enumBlocks (n + 1) (h2 :: t2)) =
        sourceBlock n h ++ '\n' :: '\n' :: assembleSpec (n + 1) (h2 :: t2)
      rw [ih (n + 1), List.append_assoc]
      rfl

/-- C9: context assembly renders each hit, in input order, as the block
"[Source i from filename]:" followed by a newline and the hit text (i
counted from 1), joins consecutive blocks with exactly one blank line, and
returns the empty string on empty input; this holds both for
RAGPipeline.prepare_context and for the inline context expression of
main_ephemeral.py, stated as equality with the spec-side renderer. -/
theorem C9_context_assembly (hits : List RHit) :
    prepare_context hits = assembleSpec 1 hits ∧
    ephContext hits = assembleSpec 1 hits ∧
    prepare_context [] = [] :=
  ⟨pyJoin_enumBlocks hits 1, pyJoin_enumBlocks hits 1, rfl⟩

/-- C2 (amended): the lexical variant EphemeralStore.add_documents is
idempotent per filename: a second add for the same filename leaves the
store exactly as if only the second add had happened, hence stats agree.
(The semantic variant is not: see the counterexample.) -/
theorem C2_eph_add_idempotent (store : Store) (f : String) (c1 c2 : List Chunk) :
    add_documents (add_documents store c1 f) c2 f = add_documents store c2 f ∧
    stats (add_documents (add_documents store c1 f) c2 f) = stats (add_documents store c2 f) :=
  ⟨add_documents_overwrite store f c1 c2, by rw [add_documents_overwrite]⟩

/-- C2 counterexample: VectorStore.add_documents performs no prior delete,
so re-adding a filename with a smaller chunk list leaves stale entries:
after add of three chunks and re-add of one chunk for the same file the
index still counts 3 chunks, while adding only the second chunk list to an
empty index counts 1. -/
theorem C2_vec_readd_stale :
    vecCount (vecAddDocuments (vecAddDocuments []
      [⟨['a'], 0, 0, 1⟩, ⟨['b'], 1, 1, 2⟩, ⟨['c'], 2, 2, 3⟩] "f") [⟨['z'], 0, 0, 1⟩] "f") = 3 ∧
    vecCount (vecAddDocuments [] [⟨['z'], 0, 0, 1⟩] "f") = 1 := by
  constructor <;> rfl

/-- C8 (amended): the semantic variant VectorStore.list_documents returns
the distinct filenames sorted lexicographically; the lexical variant
EphemeralStore.list_documents returns the dict keys in insertion order,
not sorted. -/
theorem C8_list_documents (coll : List VEntry) (store : Store) :
    List.Sorted (fun a b : String => a ≤ b) (vecListDocuments coll) ∧
    (vecListDocuments coll).Nodup ∧
    list_documents store = store.map Prod.fst := by
  refine ⟨List.sorted_insertionSort _ _, ?_, rfl⟩
  exact ((List.perm_insertionSort _ _).nodup_iff).mpr (List.nodup_dedup _)

/-- C8 counterexample: adding "b.txt" then "a.txt" to the EphemeralStore
makes list_documents return them in insertion order, which is not sorted
lexicographically. -/
theorem C8_eph_list_unsorted :
    list_documents (add_documents (add_documents [] [] "b.txt") [] "a.txt") =
      ["b.txt", "a.txt"] ∧
    ¬ List.Sorted (fun a b : String => a ≤ b)
        (list_documents (add_documents (add_documents [] [] "b.txt") [] "a.txt")) := by
  constructor
  · rfl
  · intro hs
    have h1 : ("b.txt" : String) ≤ "a.txt" := by
      have := List.rel_of_sorted_cons (show List.Sorted (fun a b : String => a ≤ b) ("b.txt" :: ["a.txt"]) from hs) "a.txt" (by simp)
      exact this
    exact absurd (String.le_iff_toList_le.mp h1) (by decide)

/-- C10: for the ephemeral chunker, the overlap parameter has no effect on
the output for any overlap >= 0 (the computed next start max(end - overlap,
end) is always end), and consecutive emitted chunks never overlap: each
chunk's start_char is at least the previous chunk's end_char. -/
theorem C10_eph_no_overlap (cs o : Int) (text : List Char) (fuel : Nat)
    (hcs : 1 ≤ cs) (ho : 0 ≤ o) :
    chunkTextEph cs o text fuel = chunkTextEph cs 0 text fuel ∧
    List.Chain' (fun a b => a.end_char ≤ b.start_char) (chunkTextEph cs o text fuel).1 := by
  constructor
  · unfold chunkTextEph
    split_ifs with h
    · rfl
    · exact auxEph_overlap cs o (pyStrip text) _ ho fuel 0 0 []
  · unfold chunkTextEph
    split_ifs with h
    · simp
    · exact auxEph_no_overlap cs o (pyStrip text) _ hcs fuel 0 0 [] (by simp) (by simp)

/-- C10 witness at a concrete input. -/
theorem C10_witness :
    (1 : Int) ≤ 2 ∧ (0 : Int) ≤ 1 ∧
      (chunkTextEph 2 1 "abc".data 5 = chunkTextEph 2 0 "abc".data 5 ∧
       List.Chain' (fun a b => a.end_char ≤ b.start_char) (chunkTextEph 2 1 "abc".data 5).1) :=
  ⟨by decide, by decide, C10_eph_no_overlap 2 1 "abc".data 5 (by decide) (by decide)⟩

theorem error_prefix_of_append (a b : List Char) (m c : List Char) (h : a <+: b) :
    a <+: b ++ m ++ c :=
  h.trans ((List.prefix_append b (m ++ c)).trans (by rw [List.append_assoc]))

/-- C3: when retrieval returned a non-empty hit list and the configured
generation backend call fails with any exception, generate_answer still
returns (the Lean embedding is a total function), its answer is a
non-empty string starting with "Error", and its sources reflect every
retrieved hit (same length, non-empty). -/
theorem C3_backend_failure_degrades (docs : List RHit) (p : Provider)
    (rOllama : Except BackendErr (List Char)) (rOpenai rGroq : Except (List Char) (List Char))
    (hd : docs ≠ []) (hf : backendFails p rOllama rOpenai rGroq) :
    (generate_answer docs p rOllama rOpenai rGroq).answer ≠ [] ∧
    "Error".data <+: (generate_answer docs p rOllama rOpenai rGroq).answer ∧
    (generate_answer docs p rOllama rOpenai rGroq).sources.length = docs.length ∧
    (generate_answer docs p rOllama rOpenai rGroq).sources ≠ [] := by
  have hpre : "Error".data <+: (generate_answer docs p rOllama rOpenai rGroq).answer := by
    unfold generate_answer
    rw [if_neg hd]
    cases p with
    | ollama =>
      obtain ⟨e, he⟩ := hf
      subst he
      cases e with
      | requestException m =>
        exact error_prefix_of_append _ _ m _ (by decide)
      | otherException m =>
        exact List.IsPrefix.trans (by decide) (List.prefix_append _ m)
    | openai =>
      obtain ⟨m, hm⟩ := hf
      subst hm
      exact List.IsPrefix.trans (by decide) (List.prefix_append _ m)
    | groq =>
      obtain ⟨m, hm⟩ := hf
      subst hm
      exact List.IsPrefix.trans (by decide) (List.prefix_append _ m)
    | unconfigured => exact absurd hf (by simp [backendFails])
  refine ⟨?_, hpre, ?_, ?_⟩
  · intro h0
    rw [h0] at hpre
    have hlen := hpre.length_le
    have h5 : ("Error".data).length = 5 := rfl
    simp at hlen
  · unfold generate_answer
    rw [if_neg hd]
    simp
  · unfold generate_answer
    rw [if_neg hd]
    simp [hd]

/-- C3 witness at a concrete failing ollama call. -/
theorem C3_witness :
    ([⟨['t'], "f.txt", 0, 1⟩] : List RHit) ≠ [] ∧
    backendFails Provider.ollama (Except.error (BackendErr.requestException "boom".data))
      (Except.ok []) (Except.ok []) ∧
    ((generate_answer [⟨['t'], "f.txt", 0, 1⟩] Provider.ollama
        (Except.error (BackendErr.requestException "boom".data))
        (Except.ok []) (Except.ok [])).answer ≠ [] ∧
      "Error".data <+: (generate_answer [⟨['t'], "f.txt", 0, 1⟩] Provider.ollama
        (Except.error (BackendErr.requestException "boom".data))
        (Except.ok []) (Except.ok [])).answer ∧
      (generate_answer [⟨['t'], "f.txt", 0, 1⟩] Provider.ollama
        (Except.error (BackendErr.requestException "boom".data))
        (Except.ok []) (Except.ok [])).sources.length =
          ([⟨['t'], "f.txt", 0, 1⟩] : List RHit).length ∧
      (generate_answer [⟨['t'], "f.txt", 0, 1⟩] Provider.ollama
        (Except.error (BackendErr.requestException "boom".data))
        (Except.ok []) (Except.ok [])).sources ≠ []) :=
  ⟨by simp, ⟨BackendErr.requestException "boom".data, rfl⟩,
    C3_backend_failure_degrades [⟨['t'], "f.txt", 0, 1⟩] Provider.ollama
      (Except.error (BackendErr.requestException "boom".data)) (Except.ok []) (Except.ok [])
      (by simp) ⟨BackendErr.requestException "boom".data, rfl⟩⟩

/-- C5: EphemeralStore.search lower-cases query and chunks, scores each
chunk as 10 * substring-presence plus the number of distinct shared words,
keeps only positive scores, and returns at most top_k hits in descending
score order with ties kept in insertion order (stable sort); the spec
example "the cat sat" vs query "cat sat" scores 12, a chunk with no
matching words scores 0 and is excluded. -/
theorem C5_lexical_scoring (store : Store) (q : List Char) (k : Nat) :
    search store q k = (sortScoredDesc (scoredHits store (q.map Char.toLower))).take k ∧
    (search store q k).length ≤ k ∧
    List.Sorted (fun a b => b.score ≤ a.score) (search store q k) ∧
    (∀ h ∈ search store q k,
      0 < h.score ∧ h.score = scoreChunk (q.map Char.toLower) (h.text.map Char.toLower)) ∧
    (∀ s : Int,
      (sortScoredDesc (scoredHits store (q.map Char.toLower))).filter (fun h => h.score == s) =
        (scoredHits store (q.map Char.toLower)).filter (fun h => h.score == s)) ∧
    scoreChunk "cat sat".data "the cat sat".data = 12 ∧
    scoreChunk "cat sat".data "dogs run fast".data = 0 ∧
    search [("doc.txt", [⟨"the cat sat".data, 0, 0, 11⟩, ⟨"dogs run fast".data, 1, 0, 13⟩])]
        "cat sat".data 3 =
      [⟨"the cat sat".data, "doc.txt", 0, 12⟩] := by
  refine ⟨search_take store q k, ?_, ?_, ?_, fun s => sortScoredDesc_stable _ s,
    by decide, by decide, by decide⟩
  · rw [search_take]
    exact List.length_take_le k (sortScoredDesc (scoredHits store (q.map Char.toLower)))
  · rw [search_take]
    exact List.Pairwise.sublist (List.take_sublist _ _) (sortScoredDesc_sorted _)
  · intro h hm
    rw [search_take] at hm
    have hm2 := List.mem_of_mem_take hm
    have hm3 := (sortScoredDesc_perm _).mem_iff.mp hm2
    exact scoredHits_score _ _ _ hm3

/-- C4: every chunk sequence that a completed chunking run produces
satisfies 0 <= start_char < end_char <= length of the (possibly truncated)
input text, strictly increasing start_char, and dense chunk_id from 0;
stated for both DocumentProcessor.chunk_text (against the truncated text
length) and the ephemeral chunk_text (against the trimmed text length).
The completion flag hypothesis records that the loop exited rather than
running out of fuel; for the DocumentProcessor variant with overlap >= 1
the loop never exits, so the invariant claim is settled by the runs that
do produce a sequence. -/
theorem C4_chunk_invariants (cs o : Int) (text : List Char) (fuel : Nat)
    (hcs : 0 < cs) (ho : 0 ≤ o) :
    ((chunkTextDoc cs o text fuel).2 = true →
      chunkInv ((truncText text).length : Int) (chunkTextDoc cs o text fuel).1) ∧
    ((chunkTextEph cs o text fuel).2 = true →
      chunkInv (((pyStrip text).length : Int)) (chunkTextEph cs o text fuel).1) := by
  constructor
  · intro hc
    unfold chunkTextDoc at hc ⊢
    split_ifs at hc ⊢ with h1
    · exact ⟨by simp, by simp, by simp⟩
    · by_cases ho0 : o = 0
      · subst ho0
        rcases auxDoc_inv cs (truncText text) (by omega) fuel 0 0 []
          (le_refl 0) (by simp) (by simp) (by simp) (by simp) (by simp) with h | h
        · exact h
        · rw [hc] at h
          cases h
      · have hlen := truncText_len_pos text h1
        have hstall := auxDoc_incomplete cs o (truncText text) (by omega) fuel 0 0 [] (by omega)
        rw [hc] at hstall
        cases hstall
  · intro hc
    unfold chunkTextEph at hc ⊢
    split_ifs at hc ⊢ with h1
    · exact ⟨by simp, by simp, by simp⟩
    · rcases auxEph_inv cs o (pyStrip text) (by omega) fuel 0 0 []
        (le_refl 0) (by simp) (by simp) (by simp) (by simp) (by simp) with h | h
      · exact h
      · rw [hc] at h
        cases h

/-- C4 witness at a concrete input. -/
theorem C4_witness :
    (0 : Int) < 5 ∧ (0 : Int) ≤ 0 ∧
      (((chunkTextDoc 5 0 "ab".data 3).2 = true →
        chunkInv ((truncText "ab".data).length : Int) (chunkTextDoc 5 0 "ab".data 3).1) ∧
       ((chunkTextEph 5 0 "ab".data 3).2 = true →
        chunkInv (((pyStrip "ab".data).length : Int)) (chunkTextEph 5 0 "ab".data 3).1)) :=
  ⟨by decide, by decide, C4_chunk_invariants 5 0 "ab".data 3 (by decide) (by decide)⟩

set_option maxRecDepth 4000

theorem isPySpace_a : isPySpace 'a' = false := rfl

theorem stripL_replicate_a (k : Nat) : stripL (List.replicate k 'a') = List.replicate k 'a' := by
  cases k with
  | zero => rfl
  | succ n => rw [List.replicate_succ]; exact stripL_cons_of_neg 'a' _ isPySpace_a

theorem stripR_replicate_a (k : Nat) : stripR (List.replicate k 'a') = List.replicate k 'a' := by
  unfold stripR
  rw [List.reverse_replicate]
  have := stripL_replicate_a k
  unfold stripL at this
  rw [this, List.reverse_replicate]

theorem pyStrip_replicate_a (k : Nat) : pyStrip (List.replicate k 'a') = List.replicate k 'a' := by
  unfold pyStrip
  rw [stripL_replicate_a, stripR_replicate_a]

theorem pySlice_replicate_a (n : Nat) (i j : Int) :
    pySlice (List.replicate n 'a') i j =
      List.replicate (min (pyIdx (n : Int) j).toNat n - (pyIdx (n : Int) i).toNat) 'a' := by
  simp [pySlice, List.take_replicate, List.drop_replicate]

theorem rfind_replicate_a (c0 : Char) (d2 : List Char) (hc : (c0 == 'a') = false) :
    ∀ n : Nat, rfind (List.replicate n 'a') (c0 :: d2) = -1 := by
  intro n
  induction n with
  | zero => rfl
  | succ m ih =>
    rw [List.replicate_succ]
    unfold rfind
    rw [ih]
    simp [List.isPrefixOf, hc]

theorem findBreak_replicate_a (n : Nat) : findBreak (List.replicate n 'a') = none := by
  unfold findBreak sentenceDelims delimCand
  rw [List.filterMap]
  simp [rfind_replicate_a '.' [' '] rfl, rfind_replicate_a '.' ['\n'] rfl,
    rfind_replicate_a '!' [' '] rfl, rfind_replicate_a '?' ['\n'] rfl]

theorem docWindowEnd_replicate_a (cs L start : Int) (n : Nat) :
    docWindowEnd cs (List.replicate n 'a') L start = clampEnd cs L start := by
  unfold docWindowEnd
  split_ifs with h
  · rw [pySlice_replicate_a, findBreak_replicate_a]
  · rfl

/-- C6: on the spec-t example, a 1200-character document (1200 repetitions
of a letter, so the sentence heuristic is inert) with chunk_size 500 and
overlap 50: DocumentProcessor.chunk_text emits chunks starting at 0, 450,
900 as the claim expects, but then emits a fourth chunk at 1150 and keeps
re-emitting the final window start 1150 without ever terminating (the
completion flag stays false); the ephemeral chunk_text terminates but
advances each window to end rather than end - overlap, yielding starts 0,
500, 1000.  Neither variant yields exactly 3 chunks at 0, ~450, ~900. -/
theorem C6_1200_char_example :
    (chunkTextDoc 500 50 (List.replicate 1200 'a') 6).2 = false ∧
    (chunkTextDoc 500 50 (List.replicate 1200 'a') 6).1.map Chunk.start_char =
      [0, 450, 900, 1150, 1150, 1150] ∧
    (chunkTextEph 500 50 (List.replicate 1200 'a') 5).2 = true ∧
    (chunkTextEph 500 50 (List.replicate 1200 'a') 5).1.map Chunk.start_char = [0, 500, 1000] := by
  have htr : truncText (List.replicate 1200 'a') = List.replicate 1200 'a' := by
    unfold truncText
    rw [if_neg]
    simp
  have hne : pyStrip (List.replicate 1200 'a') ≠ [] := by
    rw [pyStrip_replicate_a]
    simp
  have hdoc : chunkTextDoc 500 50 (List.replicate 1200 'a') 6 =
      auxDoc 500 50 (List.replicate 1200 'a') 1200 6 0 0 [] := by
    unfold chunkTextDoc
    rw [if_neg hne, htr]
    rw [show ((List.replicate 1200 'a').length : Int) = 1200 from by simp]
  have heph : chunkTextEph 500 50 (List.replicate 1200 'a') 5 =
      auxEph 500 50 (List.replicate 1200 'a') 1200 5 0 0 [] := by
    unfold chunkTextEph
    rw [if_neg hne, pyStrip_replicate_a]
    rw [show ((List.replicate 1200 'a').length : Int) = 1200 from by simp]
  rw [hdoc, heph]
  refine ⟨?_, ?_, ?_, ?_⟩
  · iterate 6
      rw [auxDoc]
      simp [docWindowEnd_replicate_a, clampEnd, pyIdx, pySlice_replicate_a,
        pyStrip_replicate_a, emitChunk, bumpCid, -List.reduceReplicate]
    rfl
  · iterate 6
      rw [auxDoc]
      simp [docWindowEnd_replicate_a, clampEnd, pyIdx, pySlice_replicate_a,
        pyStrip_replicate_a, emitChunk, bumpCid, -List.reduceReplicate]
    rfl
  · iterate 4
      rw [auxEph]
      simp [clampEnd, pyIdx, pySlice_replicate_a,
        pyStrip_replicate_a, emitChunk, bumpCid, -List.reduceReplicate]
  · iterate 4
      rw [auxEph]
      simp [clampEnd, pyIdx, pySlice_replicate_a,
        pyStrip_replicate_a, emitChunk, bumpCid, -List.reduceReplicate]

/-- C1: the DocumentProcessor.chunk_text loop does not always advance the
window start: on a 100-character text with chunk_size 500 and overlap 50
(parameters within the contract 0 <= overlap < chunk_size), the iteration
at start 50 computes window end 100 and next start 100 - 50 = 50 again, so
the loop re-runs the same window forever and the fuelled run never reaches
completion. -/
theorem C1_doc_loop_stalls :
    docWindowEnd 500 (List.replicate 100 'a') 100 50 - 50 = 50 ∧
    (chunkTextDoc 500 50 (List.replicate 100 'a') 40).2 = false := by
  constructor <;> decide

/-- C7 counterexample: DocumentProcessor.chunk_text on text "abcd" (length
4 <= chunk_size 5) with overlap 2 does not produce exactly one chunk: the
run never completes within 30 iterations and has already emitted at least
two chunks (the whole text and then the final-window tail repeatedly). -/
theorem C7_doc_single_chunk_fails :
    (chunkTextDoc 5 2 "abcd".data 30).2 = false ∧
    2 ≤ (chunkTextDoc 5 2 "abcd".data 30).1.length := by
  constructor <;> decide

/-- C7 witness at a concrete input. -/
theorem C7_witness :
    pyStrip "  hi  ".data ≠ [] ∧ ((pyStrip "  hi  ".data).length : Int) ≤ 5 ∧
      (0 : Int) ≤ 2 ∧ 2 ≤ 3 ∧
      chunkTextEph 5 2 "  hi  ".data 3 =
        ([⟨pyStrip "  hi  ".data, 0, 0, ((pyStrip "  hi  ".data).length : Int)⟩], true) :=
  ⟨by decide, by decide, by decide, by decide,
    C7_eph_single_chunk 5 2 "  hi  ".data 3 (by decide) (by decide) (by decide) (by decide)⟩
